import Mathlib

/-!
Verification of the quad-edge Delaunay/Voronoi core (`src/guibas_and_stolfi.py`,
`src/dual.py`) against its specification.

The embedding is shallow:

* sites are exact rational pairs (`Pt`), idealizing the IEEE doubles of the
  source; the geometric predicates `ccw` and `in_circle` are the signs of the
  same determinants the source hands to `np.linalg.det`;
* a directed edge record is identified by `(owning quad index, rotation index
  mod 4)` (`ERef`), mirroring the Python identification of an `Edge` by its
  parent `Quad` and its `_rot` field;
* the live pointer graph is a total map `next : ERef → ERef` together with an
  origin-payload map `org : ERef → Option Pt` (`GState`); `Quad.make`,
  `splice` and `connect` are state transformers on it;
* the deletable graph of `delete_edge` additionally models the `_quad`
  back-reference as an `Option`, so that clearing it to `None` (as
  `Edge.delete` does) makes subsequent `rot`/`sym` accesses fail (`MState`).
-/

namespace Voronoi

/-- A site or computed vertex: an exact 2D rational point standing for the
source's `(float, float)` tuples. -/
abbrev Pt := ℚ × ℚ

/-! ## Geometric predicates (`guibas_and_stolfi.py`, `ccw` / `in_circle`) -/

/-- The 3×3 determinant of rows `[aₓ, a_y, 1]`, `[bₓ, b_y, 1]`, `[cₓ, c_y, 1]`
that `ccw` hands to `np.linalg.det`, written out by cofactor expansion. -/
def det3 (a b c : Pt) : ℚ :=
  a.1 * (b.2 - c.2) - a.2 * (b.1 - c.1) + (b.1 * c.2 - c.1 * b.2)

/-- `ccw(a, b, c)` (lines 255-266): true iff the orientation determinant is
strictly positive. -/
def ccw (a b c : Pt) : Bool :=
  decide (0 < det3 a b c)

/-- The paraboloid lift `x² + y²` used for the third column of the
`in_circle` matrix. -/
def lift (p : Pt) : ℚ := p.1 ^ 2 + p.2 ^ 2

/-- 3×3 minor of the `in_circle` matrix: determinant of the rows
`[pₓ, p_y, lift p]`, `[qₓ, q_y, lift q]`, `[rₓ, r_y, lift r]`. -/
def mdet3 (p q r : Pt) : ℚ :=
  p.1 * (q.2 * lift r - r.2 * lift q)
    - p.2 * (q.1 * lift r - r.1 * lift q)
    + lift p * (q.1 * r.2 - r.1 * q.2)

/-- The 4×4 determinant of the lifted-paraboloid matrix with rows
`[xᵢ, yᵢ, xᵢ² + yᵢ², 1]` (the matrix `in_circle` hands to `np.linalg.det`),
expanded along its fourth column of ones. -/
def det4 (a b c d : Pt) : ℚ :=
  -mdet3 b c d + mdet3 a c d - mdet3 a b d + mdet3 a b c

/-- Models `len(set([a, b, c, d])) == 4`: the four points are pairwise
distinct. -/
def distinct4 (a b c d : Pt) : Prop :=
  a ≠ b ∧ a ≠ c ∧ a ≠ d ∧ b ≠ c ∧ b ≠ d ∧ c ≠ d

instance (a b c d : Pt) : Decidable (distinct4 a b c d) := by
  unfold distinct4; infer_instance

/-- `in_circle(a, b, c, d)` (lines 234-252): if fewer than four distinct
points are present the determinant is skipped and the result is `False`;
otherwise the result is the sign test `det > 0`. -/
def in_circle (a b c d : Pt) : Bool :=
  if distinct4 a b c d then decide (0 < det4 a b c d) else false

/-- C2: `in_circle` returns false unconditionally when fewer than four
distinct points are present; on four distinct points it is true iff the 4×4
lifted-paraboloid determinant is strictly positive; and on the two concrete
spec examples it returns true for the interior point `(0.4, 0.4)` and false
for the exterior point `(2, 2)`. -/
theorem in_circle_spec :
    (∀ a b c d : Pt, ¬ distinct4 a b c d → in_circle a b c d = false) ∧
    (∀ a b c d : Pt, distinct4 a b c d →
      (in_circle a b c d = true ↔ 0 < det4 a b c d)) ∧
    in_circle (0, 0) (1, 0) (0, 1) (2/5, 2/5) = true ∧
    in_circle (0, 0) (1, 0) (0, 1) (2, 2) = false := by
  refine ⟨?_, ?_, ?_, ?_⟩
  · intro a b c d h
    simp [in_circle, h]
  · intro a b c d h
    simp [in_circle, h]
  · rw [in_circle, if_pos (by norm_num [distinct4, Prod.ext_iff])]
    norm_num [det4, mdet3, lift]
  · rw [in_circle, if_pos (by norm_num [distinct4, Prod.ext_iff])]
    norm_num [det4, mdet3, lift]

/-- Witness for C2: the two hypothesis-bearing conjuncts applied at concrete
points: the degenerate quadruple `(0,0), (0,0), (1,0), (0,1)` yields false,
and the distinct quadruple of the interior example satisfies the determinant
characterization. -/
theorem in_circle_spec_witness :
    in_circle (0, 0) (0, 0) (1, 0) (0, 1) = false ∧
    (in_circle (0, 0) (1, 0) (0, 1) (2/5, 2/5) = true ↔
      0 < det4 (0, 0) (1, 0) (0, 1) (2/5, 2/5)) := by
  constructor
  · exact in_circle_spec.1 (0, 0) (0, 0) (1, 0) (0, 1)
      (by norm_num [distinct4])
  · exact in_circle_spec.2.1 (0, 0) (1, 0) (0, 1) (2/5, 2/5)
      (by norm_num [distinct4, Prod.ext_iff])

/-! ## The quad-edge pointer structure

An edge record is `(owning quad index, rotation index)`; the four records of
quad `q` are `(q, 0) … (q, 3)`, exactly the `Quad.edges` list of the source.
`rot n` adds `n` to the rotation index mod 4 (`Edge.rot`, lines 70-77). -/

/-- A directed edge record: `(owning Quad index, _rot mod 4)`. -/
abbrev ERef := ℕ × ZMod 4

/-- `Edge.rot(n)`: rotate within the owning quad, `(self._rot + n) % 4`. -/
def rotE (e : ERef) (n : ZMod 4) : ERef := (e.1, e.2 + n)

/-- `Edge.sym`: `rot(2)`. -/
def symE (e : ERef) : ERef := rotE e 2

/-- Rotation-index parity: primal edges have parity 0, dual edges parity 1.
A well-formed `onext` map preserves it (an origin ring is all-primal or
all-dual). -/
def parN : ZMod 4 →+* ZMod 2 := ZMod.castHom (show 2 ∣ 4 by norm_num) (ZMod 2)

/-- Parity of an edge record. -/
def par (e : ERef) : ZMod 2 := parN e.2

/-- First half of `splice(a, b)` (lines 198-209): the simultaneous swap
`alpha.next, beta.next = beta.next, alpha.next` with
`alpha = a.next.rot(1)` and `beta = b.next.rot(1)`, performed on the
`onext`-successor map. -/
def spliceDuals (next : ERef → ERef) (a b : ERef) : ERef → ERef :=
  Function.update (Function.update next (rotE (next a) 1) (next (rotE (next b) 1)))
    (rotE (next b) 1) (next (rotE (next a) 1))

/-- `splice(a, b)` as a transformer of the `onext`-successor map: the dual
swap above followed by `a.next, b.next = b.next, a.next`. -/
def spliceN (next : ERef → ERef) (a b : ERef) : ERef → ERef :=
  Function.update (Function.update (spliceDuals next a b) a (spliceDuals next a b b))
    b (spliceDuals next a b a)

section SpliceEval

variable (f : ERef → ERef) (a b : ERef)

lemma spliceDuals_other {x : ERef} (hxα : x ≠ rotE (f a) 1) (hxβ : x ≠ rotE (f b) 1) :
    spliceDuals f a b x = f x := by
  simp [spliceDuals, Function.update_apply, hxα, hxβ]

lemma spliceDuals_alpha (hαb : rotE (f a) 1 ≠ rotE (f b) 1) :
    spliceDuals f a b (rotE (f a) 1) = f (rotE (f b) 1) := by
  simp [spliceDuals, Function.update_apply, hαb]

lemma spliceDuals_beta :
    spliceDuals f a b (rotE (f b) 1) = f (rotE (f a) 1) := by
  simp [spliceDuals, Function.update_apply]

lemma spliceN_eval_other {x : ERef} (hxa : x ≠ a) (hxb : x ≠ b)
    (hxα : x ≠ rotE (f a) 1) (hxβ : x ≠ rotE (f b) 1) :
    spliceN f a b x = f x := by
  simp only [spliceN, Function.update_apply, if_neg hxa, if_neg hxb]
  exact spliceDuals_other f a b hxα hxβ

lemma spliceN_eval_left (haα : a ≠ rotE (f a) 1) (haβ : a ≠ rotE (f b) 1)
    (hbα : b ≠ rotE (f a) 1) (hbβ : b ≠ rotE (f b) 1) :
    spliceN f a b a = f b := by
  by_cases hab : a = b
  · subst hab
    simp only [spliceN, Function.update_apply, if_pos rfl]
    exact spliceDuals_other f a a haα haβ
  · simp only [spliceN, Function.update_apply, if_neg hab, if_pos rfl]
    exact spliceDuals_other f a b hbα hbβ

lemma spliceN_eval_right (haα : a ≠ rotE (f a) 1) (haβ : a ≠ rotE (f b) 1) :
    spliceN f a b b = f a := by
  simp only [spliceN, Function.update_apply, if_pos rfl]
  exact spliceDuals_other f a b haα haβ

lemma spliceN_eval_alpha (hαa : rotE (f a) 1 ≠ a) (hαb : rotE (f a) 1 ≠ b) :
    spliceN f a b (rotE (f a) 1) = f (rotE (f b) 1) := by
  simp only [spliceN, Function.update_apply, if_neg hαa, if_neg hαb]
  by_cases h : rotE (f a) 1 = rotE (f b) 1
  · rw [h, spliceDuals_beta, ← h]
  · exact spliceDuals_alpha f a b h

lemma spliceN_eval_beta (hβa : rotE (f b) 1 ≠ a) (hβb : rotE (f b) 1 ≠ b) :
    spliceN f a b (rotE (f b) 1) = f (rotE (f a) 1) := by
  simp only [spliceN, Function.update_apply, if_neg hβa, if_neg hβb]
  exact spliceDuals_beta f a b

end SpliceEval

lemma par_rotE (e : ERef) (n : ZMod 4) : par (rotE e n) = par e + parN n := by
  simp [par, rotE, map_add]

lemma parN_one_ne_zero : parN 1 ≠ 0 := by
  rw [map_one]; exact one_ne_zero

/-! ## Onext orbits and the effect of `splice` on them -/

/-- `y` is on the forward `onext` walk from `x`: the onext orbit relation
(on the cyclic rings of a well-formed structure this is membership in the
same ring). -/
def Reaches (f : ERef → ERef) (x y : ERef) : Prop := ∃ n : ℕ, f^[n] x = y

/-- The restriction of `splice a b` to the origin-ring level: swap the
`onext` successors of `a` and `b`. On edges of the parity class of `a` and
`b` this agrees with `spliceN` (the other two updates of `splice` touch only
the dual parity class). -/
def swapUpd (f : ERef → ERef) (a b : ERef) : ERef → ERef :=
  Function.update (Function.update f a (f b)) b (f a)

lemma swapUpd_left {f : ERef → ERef} {a b : ERef} : swapUpd f a b a = f b := by
  by_cases hab : a = b
  · subst hab; simp [swapUpd]
  · simp [swapUpd, Function.update_apply, hab]

lemma swapUpd_right {f : ERef → ERef} {a b : ERef} : swapUpd f a b b = f a := by
  simp [swapUpd]

lemma swapUpd_other {f : ERef → ERef} {a b x : ERef} (hxa : x ≠ a) (hxb : x ≠ b) :
    swapUpd f a b x = f x := by
  simp [swapUpd, Function.update_apply, hxa, hxb]

/-- Iterates of a map are periodic modulo a period of the base point. -/
lemma iterate_mod_period (f : ERef → ERef) (x : ERef) (n : ℕ) (hn : 0 < n)
    (hper : f^[n] x = x) : ∀ i, f^[i] x = f^[i % n] x := by
  intro i
  induction i using Nat.strong_induction_on with
  | _ i ih =>
    by_cases h : i < n
    · rw [Nat.mod_eq_of_lt h]
    · push_neg at h
      have h2 : f^[i] x = f^[i - n] x := by
        calc f^[i] x = f^[(i - n) + n] x := by rw [Nat.sub_add_cancel h]
          _ = f^[i - n] (f^[n] x) := Function.iterate_add_apply f _ _ x
          _ = f^[i - n] x := by rw [hper]
      rw [h2, ih (i - n) (by omega), Nat.mod_eq_sub_mod h]

/-- Any periodic point has a minimal positive period. -/
lemma exists_minimal_period (f : ERef → ERef) (x : ERef) (n : ℕ) (hn : 0 < n)
    (hper : f^[n] x = x) :
    ∃ n₀, 0 < n₀ ∧ f^[n₀] x = x ∧ ∀ j, 0 < j → j < n₀ → f^[j] x ≠ x := by
  have hex : ∃ k, 0 < k ∧ f^[k] x = x := ⟨n, hn, hper⟩
  refine ⟨Nat.find hex, (Nat.find_spec hex).1, (Nat.find_spec hex).2, ?_⟩
  intro j hj hjlt hjper
  exact Nat.find_min hex hjlt ⟨hj, hjper⟩

/-- Merge half of the orbit dichotomy: if `b` is periodic and `a` cannot
reach `b`, then after swapping the successors of `a` and `b` the walk from
`a` runs through `b`'s old ring and reaches `b`. -/
lemma swapUpd_reaches (f : ERef → ERef) (a b : ERef)
    (hnr : ¬ Reaches f a b) (n : ℕ) (hn : 0 < n) (hper : f^[n] b = b) :
    Reaches (swapUpd f a b) a b := by
  have hab : a ≠ b := fun h => hnr ⟨0, h⟩
  obtain ⟨n₀, hn₀pos, hn₀per, hmin⟩ := exists_minimal_period f b n hn hper
  -- b's ring never passes through a
  have hno_a : ∀ i, f^[i] b ≠ a := by
    intro i hia
    apply hnr
    refine ⟨n₀ - i % n₀, ?_⟩
    rw [← hia, iterate_mod_period f b n₀ hn₀pos hn₀per i,
      ← Function.iterate_add_apply]
    have : n₀ - i % n₀ + i % n₀ = n₀ := by
      have := Nat.mod_lt i hn₀pos
      omega
    rw [this, hn₀per]
  -- the swapped walk from a follows b's ring
  have hwalk : ∀ j, 1 ≤ j → j ≤ n₀ → (swapUpd f a b)^[j] a = f^[j] b := by
    intro j
    induction j with
    | zero => omega
    | succ j ih =>
      intro _ hle
      by_cases hj : j = 0
      · subst hj
        simpa using swapUpd_left (f := f) (a := a) (b := b)
      · have hstep : (swapUpd f a b)^[j + 1] a = swapUpd f a b (f^[j] b) := by
          rw [Function.iterate_succ_apply', ih (by omega) (by omega)]
        rw [hstep, swapUpd_other (hno_a j) (hmin j (by omega) (by omega))]
        exact (Function.iterate_succ_apply' f j b).symm
  exact ⟨n₀, by rw [hwalk n₀ hn₀pos le_rfl, hn₀per]⟩

/-- Split half of the orbit dichotomy: if `a` reaches `b` inside a common
periodic ring, then after swapping the successors of `a` and `b` the walk
from `a` stays in the piece of the ring that avoids `b`. -/
lemma swapUpd_not_reaches (f : ERef → ERef) (a b : ERef)
    (hr : Reaches f a b) (hab : a ≠ b) (m : ℕ) (hm : 0 < m) (hper : f^[m] a = a) :
    ¬ Reaches (swapUpd f a b) a b := by
  obtain ⟨m₀, hm₀pos, hm₀per, hmin⟩ := exists_minimal_period f a m hm hper
  have hdist : ∀ i j, i < m₀ → j < m₀ → f^[i] a = f^[j] a → i = j := by
    have key : ∀ i j, i < j → j < m₀ → f^[i] a ≠ f^[j] a := by
      intro i j hij hjlt heq
      have h1 : f^[m₀ - j + i] a = a := by
        have h0 : f^[m₀ - j] (f^[i] a) = f^[m₀ - j] (f^[j] a) := by rw [heq]
        rw [← Function.iterate_add_apply, ← Function.iterate_add_apply] at h0
        have h2 : m₀ - j + j = m₀ := by omega
        rw [h2] at h0
        rw [h0, hm₀per]
      exact hmin (m₀ - j + i) (by omega) (by omega) h1
    intro i j hi hj heq
    rcases lt_trichotomy i j with h | h | h
    · exact absurd heq (key i j h hj)
    · exact h
    · exact absurd heq.symm (key j i h hi)
  -- position of b on a's ring
  obtain ⟨k, hk⟩ := hr
  set k₀ := k % m₀ with hk₀def
  have hk₀lt : k₀ < m₀ := Nat.mod_lt k hm₀pos
  have hb : f^[k₀] a = b := by
    rw [← hk, iterate_mod_period f a m₀ hm₀pos hm₀per k]
  have hk₀pos : 0 < k₀ := by
    rcases Nat.eq_zero_or_pos k₀ with h | h
    · exfalso; apply hab; rw [← hb, h]; simp
    · exact h
  -- invariant region of the swapped walk from a
  set P : ERef → Prop := fun x => x = a ∨ ∃ i, k₀ < i ∧ i < m₀ ∧ f^[i] a = x
    with hPdef
  have hPa : P a := Or.inl rfl
  have hclosed : ∀ x, P x → P (swapUpd f a b x) := by
    intro x hx
    rcases hx with hxa | ⟨i, hik, him, hix⟩
    · rw [hxa, swapUpd_left, ← hb,
        show f (f^[k₀] a) = f^[k₀ + 1] a from (Function.iterate_succ_apply' f k₀ a).symm]
      by_cases h : k₀ + 1 = m₀
      · left; rw [h, hm₀per]
      · right; exact ⟨k₀ + 1, by omega, by omega, rfl⟩
    · have hxa : x ≠ a := by
        rw [← hix]
        intro h
        have := hdist i 0 him (by omega) (by simpa using h)
        omega
      have hxb : x ≠ b := by
        rw [← hix, ← hb]
        intro h
        have := hdist i k₀ him hk₀lt h
        omega
      rw [swapUpd_other hxa hxb, ← hix,
        show f (f^[i] a) = f^[i + 1] a from (Function.iterate_succ_apply' f i a).symm]
      by_cases h : i + 1 = m₀
      · left; rw [h, hm₀per]
      · right; exact ⟨i + 1, by omega, by omega, rfl⟩
  have hinv : ∀ j, P ((swapUpd f a b)^[j] a) := by
    intro j
    induction j with
    | zero => simpa using hPa
    | succ j ih =>
      rw [Function.iterate_succ_apply']
      exact hclosed _ ih
  rintro ⟨j, hj⟩
  rcases (hj ▸ hinv j) with h | ⟨i, hik, him, hix⟩
  · exact hab h.symm
  · rw [← hb] at hix
    have := hdist i k₀ him hk₀lt hix
    omega

lemma ne_of_par {x y : ERef} (h : par x ≠ par y) : x ≠ y := fun hxy => h (by rw [hxy])

section Involution

variable (f : ERef → ERef) (a b : ERef)

lemma par_alpha (Hf : ∀ x, par (f x) = par x) :
    par (rotE (f a) 1) = par a + parN 1 := by
  rw [par_rotE, Hf]

lemma par_beta (Hf : ∀ x, par (f x) = par x) (Hab : par a = par b) :
    par (rotE (f b) 1) = par a + parN 1 := by
  rw [par_rotE, Hf, Hab]

lemma alpha_ne_a (Hf : ∀ x, par (f x) = par x) : rotE (f a) 1 ≠ a := by
  apply ne_of_par
  rw [par_alpha f a Hf]
  simp [parN_one_ne_zero]

lemma alpha_ne_b (Hf : ∀ x, par (f x) = par x) (Hab : par a = par b) :
    rotE (f a) 1 ≠ b := by
  apply ne_of_par
  rw [par_alpha f a Hf, ← Hab]
  simp [parN_one_ne_zero]

lemma beta_ne_a (Hf : ∀ x, par (f x) = par x) (Hab : par a = par b) :
    rotE (f b) 1 ≠ a := by
  apply ne_of_par
  rw [par_beta f a b Hf Hab]
  simp [parN_one_ne_zero]

lemma beta_ne_b (Hf : ∀ x, par (f x) = par x) (Hab : par a = par b) :
    rotE (f b) 1 ≠ b := by
  apply ne_of_par
  rw [par_beta f a b Hf Hab, ← Hab]
  simp [parN_one_ne_zero]

/-- `splice(a, b)` twice restores the `onext` map (under the parity
discipline of a well-formed structure). -/
lemma spliceN_spliceN (Hf : ∀ x, par (f x) = par x) (Hab : par a = par b) :
    spliceN (spliceN f a b) a b = f := by
  have hαa := alpha_ne_a f a Hf
  have hαb := alpha_ne_b f a b Hf Hab
  have hβa := beta_ne_a f a b Hf Hab
  have hβb := beta_ne_b f a b Hf Hab
  have h1 : spliceN f a b a = f b :=
    spliceN_eval_left f a b hαa.symm hβa.symm hαb.symm hβb.symm
  have h2 : spliceN f a b b = f a :=
    spliceN_eval_right f a b hαa.symm hβa.symm
  have h3 : spliceN f a b (rotE (f a) 1) = f (rotE (f b) 1) :=
    spliceN_eval_alpha f a b hαa hαb
  have h4 : spliceN f a b (rotE (f b) 1) = f (rotE (f a) 1) :=
    spliceN_eval_beta f a b hβa hβb
  have hα₂ : rotE (spliceN f a b a) 1 = rotE (f b) 1 := by rw [h1]
  have hβ₂ : rotE (spliceN f a b b) 1 = rotE (f a) 1 := by rw [h2]
  funext x
  by_cases hxa : x = a
  · rw [hxa, spliceN_eval_left (spliceN f a b) a b
      (by rw [hα₂]; exact hβa.symm) (by rw [hβ₂]; exact hαa.symm)
      (by rw [hα₂]; exact hβb.symm) (by rw [hβ₂]; exact hαb.symm), h2]
  by_cases hxb : x = b
  · rw [hxb, spliceN_eval_right (spliceN f a b) a b
      (by rw [hα₂]; exact hβa.symm) (by rw [hβ₂]; exact hαa.symm), h1]
  by_cases hxα : x = rotE (f a) 1
  · have := spliceN_eval_beta (spliceN f a b) a b
      (by rw [hβ₂]; exact hαa) (by rw [hβ₂]; exact hαb)
    rw [hβ₂, hα₂] at this
    rw [hxα, this, h4]
  by_cases hxβ : x = rotE (f b) 1
  · have := spliceN_eval_alpha (spliceN f a b) a b
      (by rw [hα₂]; exact hβa) (by rw [hα₂]; exact hβb)
    rw [hα₂, hβ₂] at this
    rw [hxβ, this, h3]
  · rw [spliceN_eval_other (spliceN f a b) a b hxa hxb
      (by rw [hα₂]; exact hxβ) (by rw [hβ₂]; exact hxα),
      spliceN_eval_other f a b hxa hxb hxα hxβ]

/-- On the parity class of `a` and `b`, `splice` acts exactly as the swap of
the two `onext` successors (the dual-class updates do not interfere). -/
lemma spliceN_eq_swapUpd (Hf : ∀ x, par (f x) = par x) (Hab : par a = par b)
    {x : ERef} (hx : par x = par a) :
    spliceN f a b x = swapUpd f a b x := by
  have hαa := alpha_ne_a f a Hf
  have hαb := alpha_ne_b f a b Hf Hab
  have hβa := beta_ne_a f a b Hf Hab
  have hβb := beta_ne_b f a b Hf Hab
  by_cases hxa : x = a
  · rw [hxa, spliceN_eval_left f a b hαa.symm hβa.symm hαb.symm hβb.symm,
      swapUpd_left]
  by_cases hxb : x = b
  · rw [hxb, spliceN_eval_right f a b hαa.symm hβa.symm, swapUpd_right]
  · have hxα : x ≠ rotE (f a) 1 := by
      apply ne_of_par
      rw [hx, par_alpha f a Hf]
      simp [parN_one_ne_zero]
    have hxβ : x ≠ rotE (f b) 1 := by
      apply ne_of_par
      rw [hx, par_beta f a b Hf Hab]
      simp [parN_one_ne_zero]
    rw [spliceN_eval_other f a b hxa hxb hxα hxβ, swapUpd_other hxa hxb]

lemma par_swapUpd (Hf : ∀ x, par (f x) = par x) (Hab : par a = par b) :
    ∀ x, par (swapUpd f a b x) = par x := by
  intro x
  by_cases hxa : x = a
  · rw [hxa, swapUpd_left, Hf, Hab]
  by_cases hxb : x = b
  · rw [hxb, swapUpd_right, Hf, Hab]
  · rw [swapUpd_other hxa hxb, Hf]

lemma spliceN_iterate_eq (Hf : ∀ x, par (f x) = par x) (Hab : par a = par b) :
    ∀ j, (spliceN f a b)^[j] a = (swapUpd f a b)^[j] a := by
  have main : ∀ j, (spliceN f a b)^[j] a = (swapUpd f a b)^[j] a ∧
      par ((swapUpd f a b)^[j] a) = par a := by
    intro j
    induction j with
    | zero => exact ⟨rfl, rfl⟩
    | succ j ih =>
      obtain ⟨ihval, ihpar⟩ := ih
      constructor
      · rw [Function.iterate_succ_apply', Function.iterate_succ_apply', ihval,
          spliceN_eq_swapUpd f a b Hf Hab ihpar]
      · rw [Function.iterate_succ_apply', par_swapUpd f a b Hf Hab, ihpar]
  exact fun j => (main j).1

end Involution

/-- C4: `splice` is self-inverse — splicing the same pair twice restores
every edge's `onext` successor — and a single `splice(a, b)` either merges
two distinct onext orbits into one or splits one orbit into two: under the
parity discipline of a well-formed quad-edge structure (the successor map
preserves primal/dual parity, `a` and `b` lie in a common parity class and
on finite rings), after `splice(a, b)` the edges `a` and `b` share an orbit
exactly when they did not before. -/
theorem splice_self_inverse_and_orbits (f : ERef → ERef) (a b : ERef)
    (Hf : ∀ x, par (f x) = par x) (Hab : par a = par b) :
    spliceN (spliceN f a b) a b = f ∧
    (a ≠ b → ∀ m n : ℕ, 0 < m → 0 < n → f^[m] a = a → f^[n] b = b →
      (Reaches (spliceN f a b) a b ↔ ¬ Reaches f a b)) := by
  constructor
  · exact spliceN_spliceN f a b Hf Hab
  · intro hab m n hm hn hpm hpn
    have hiter := spliceN_iterate_eq f a b Hf Hab
    have hbridge : Reaches (spliceN f a b) a b ↔ Reaches (swapUpd f a b) a b := by
      constructor <;> rintro ⟨j, hj⟩
      · exact ⟨j, by rw [← hiter j]; exact hj⟩
      · exact ⟨j, by rw [hiter j]; exact hj⟩
    rw [hbridge]
    constructor
    · intro hr hfr
      exact swapUpd_not_reaches f a b hfr hab m hm hpm hr
    · intro hnr
      exact swapUpd_reaches f a b hnr n hn hpn

/-- A concrete well-formed successor map: the `onext` map of freshly made
quads (`Quad.make` sets `edge.next = edge`, `sym.next = sym`,
`rot.next = rotsym`, `rotsym.next = rot`, i.e. `(q, r) ↦ (q, -r)`). -/
def makeNext : ERef → ERef := fun e => (e.1, -e.2)

lemma makeNext_par : ∀ x, par (makeNext x) = par x := by
  intro x
  have h : ∀ z : ZMod 2, -z = z := by decide
  simp [makeNext, par, map_neg, h]

lemma makeNext_fix : ∀ k, makeNext^[k] ((0, 0) : ERef) = (0, 0) := by
  intro k
  induction k with
  | zero => rfl
  | succ k ih => rw [Function.iterate_succ_apply', ih]; rfl

/-- Witness for C4: on the two primal edges `(0,0)` and `(1,0)` of two fresh
quads (each its own singleton orbit), the theorem yields that a double
splice restores the map and that one splice merges the two orbits. -/
theorem splice_self_inverse_and_orbits_witness :
    spliceN (spliceN makeNext (0, 0) (1, 0)) (0, 0) (1, 0) = makeNext ∧
    Reaches (spliceN makeNext (0, 0) (1, 0)) (0, 0) (1, 0) := by
  have thm := splice_self_inverse_and_orbits makeNext (0, 0) (1, 0)
    makeNext_par rfl
  refine ⟨thm.1, ?_⟩
  apply (thm.2 (by decide) 1 1 one_pos one_pos (by rfl) (by rfl)).mpr
  rintro ⟨k, hk⟩
  rw [makeNext_fix k] at hk
  exact absurd hk (by decide)

/-! ## The live graph state: `Quad.make`, `connect`, and the `delaunay`
base case for three sites -/

/-- The live pointer graph: an arena of `nquads` allocated quads, the
`onext`-successor map over their edge records, and the `data["origin"]`
payload of every record (`None` until assigned, as in `Edge.__init__`). -/
structure GState where
  nquads : ℕ
  next : ERef → ERef
  org : ERef → Option Pt

/-- The successor map after `Quad.make` allocates quad `q`: the primal edge
and its sym are their own `onext` successors, the two dual records point at
each other — record `(q, r)` gets successor `(q, -r)`; other records keep
their successors. -/
def makeNextFun (next : ERef → ERef) (q : ℕ) : ERef → ERef :=
  fun x => if x.1 = q then (q, -x.2) else next x

/-- The origin-payload map after `Quad.make` allocates quad `q`: the four
new records carry `None` (`Edge.__init__`), others are untouched. -/
def makeOrgFun (org : ERef → Option Pt) (q : ℕ) : ERef → Option Pt :=
  fun x => if x.1 = q then none else org x

/-- `Quad.make()` (lines 26-46): allocate a fresh quad and return its primal
edge `(q, 0)`. -/
def quadMake (st : GState) : GState × ERef :=
  (⟨st.nquads + 1, makeNextFun st.next st.nquads, makeOrgFun st.org st.nquads⟩,
   (st.nquads, 0))

/-- `e.lnext` = `self.rot(-1).onext.rot(1)` (lines 114-119), read off the
successor map. -/
def lnextN (next : ERef → ERef) (e : ERef) : ERef := rotE (next (rotE e (-1))) 1

/-- `e.oprev` = `self.rot(1).onext.rot(1)` (lines 142-147). -/
def oprevN (next : ERef → ERef) (e : ERef) : ERef := rotE (next (rotE e 1)) 1

/-- `connect(a, b)` (lines 212-222): make a new edge `e`, set
`e.org = a.dest` and `e.dest = b.org`, then `splice(e, a.lnext)` and
`splice(e.sym, b)`. Returns the new state and `e`. -/
def connectE (st : GState) (a b : ERef) : GState × ERef :=
  let p := quadMake st
  let e := p.2
  let org1 := Function.update p.1.org e (p.1.org (symE a))
  let org2 := Function.update org1 (symE e) (org1 b)
  let next2 := spliceN p.1.next e (lnextN p.1.next a)
  let next3 := spliceN next2 (symE e) b
  (⟨p.1.nquads, next3, org2⟩, e)

/-- The `len(S) == 3` branch of `delaunay` (lines 305-330): make edges `a`
(quad 0) and `b` (quad 1), `splice(a.sym, b)`, assign `a: s1→s2`,
`b: s2→s3`, then close the triangle with `connect(b, a)` when one of the
two `ccw` tests holds, or return the open chain when the sites are
collinear. -/
def delaunay3 (s1 s2 s3 : Pt) : GState × ERef × ERef :=
  let st0 : GState := ⟨0, fun x => x, fun _ => none⟩
  let pa := quadMake st0
  let pb := quadMake pa.1
  let a := pa.2
  let b := pb.2
  let st1 : GState := ⟨pb.1.nquads, spliceN pb.1.next (symE a) b, pb.1.org⟩
  let org1 := Function.update st1.org a (some s1)
  let org2 := Function.update org1 (symE a) (some s2)
  let org3 := Function.update org2 b (some s2)
  let org4 := Function.update org3 (symE b) (some s3)
  let st2 : GState := ⟨st1.nquads, st1.next, org4⟩
  if ccw s1 s2 s3 then
    let pc := connectE st2 b a
    (pc.1, a, symE b)
  else if ccw s1 s3 s2 then
    let pc := connectE st2 b a
    (pc.1, symE pc.2, pc.2)
  else
    (st2, a, symE b)

set_option maxHeartbeats 1600000 in
/-- C3: on any three sites the base case builds the chain `a : s1→s2`
(quad 0), `b : s2→s3` (quad 1); if `ccw(s1,s2,s3)` it allocates a closing
edge `c : s3→s1` (quad 2), the left ring of `a` is the triangle
`a → b → c → a`, and the result is `(a, b.sym)`; if instead `ccw(s1,s3,s2)`
the same closing edge is built and the result is `(c.sym, c)`; if neither
holds (collinear sites) no third quad is allocated and the open chain
`(a, b.sym)` is returned. -/
theorem delaunay3_base_case (s1 s2 s3 : Pt) :
    ((delaunay3 s1 s2 s3).1.org (0, 0) = some s1 ∧
     (delaunay3 s1 s2 s3).1.org (0, 2) = some s2 ∧
     (delaunay3 s1 s2 s3).1.org (1, 0) = some s2 ∧
     (delaunay3 s1 s2 s3).1.org (1, 2) = some s3) ∧
    (ccw s1 s2 s3 = true →
      (delaunay3 s1 s2 s3).2 = ((0, 0), (1, 2)) ∧
      (delaunay3 s1 s2 s3).1.nquads = 3 ∧
      (delaunay3 s1 s2 s3).1.org (2, 0) = some s3 ∧
      (delaunay3 s1 s2 s3).1.org (2, 2) = some s1 ∧
      lnextN (delaunay3 s1 s2 s3).1.next (0, 0) = (1, 0) ∧
      lnextN (delaunay3 s1 s2 s3).1.next (1, 0) = (2, 0) ∧
      lnextN (delaunay3 s1 s2 s3).1.next (2, 0) = (0, 0)) ∧
    (ccw s1 s2 s3 = false → ccw s1 s3 s2 = true →
      (delaunay3 s1 s2 s3).2 = ((2, 2), (2, 0)) ∧
      (delaunay3 s1 s2 s3).1.nquads = 3 ∧
      (delaunay3 s1 s2 s3).1.org (2, 0) = some s3 ∧
      (delaunay3 s1 s2 s3).1.org (2, 2) = some s1) ∧
    (ccw s1 s2 s3 = false → ccw s1 s3 s2 = false →
      (delaunay3 s1 s2 s3).2 = ((0, 0), (1, 2)) ∧
      (delaunay3 s1 s2 s3).1.nquads = 2) := by
  refine ⟨?_, ?_, ?_, ?_⟩
  · by_cases h1 : ccw s1 s2 s3 = true
    · refine ⟨?_, ?_, ?_, ?_⟩ <;>
        simp +decide [delaunay3, connectE, quadMake, makeNextFun, makeOrgFun, spliceN, spliceDuals,
          lnextN, symE, rotE, Function.update_apply, h1, Prod.ext_iff]
    · rw [Bool.not_eq_true] at h1
      by_cases h2 : ccw s1 s3 s2 = true
      · refine ⟨?_, ?_, ?_, ?_⟩ <;>
          simp +decide [delaunay3, connectE, quadMake, makeNextFun, makeOrgFun, spliceN, spliceDuals,
            lnextN, symE, rotE, Function.update_apply, h1, h2, Prod.ext_iff]
      · rw [Bool.not_eq_true] at h2
        refine ⟨?_, ?_, ?_, ?_⟩ <;>
          simp +decide [delaunay3, connectE, quadMake, makeNextFun, makeOrgFun, spliceN, spliceDuals,
            lnextN, symE, rotE, Function.update_apply, h1, h2, Prod.ext_iff]
  · intro h1
    refine ⟨?_, ?_, ?_, ?_, ?_, ?_, ?_⟩ <;>
      simp +decide [delaunay3, connectE, quadMake, makeNextFun, makeOrgFun, spliceN, spliceDuals,
        lnextN, symE, rotE, Function.update_apply, h1, Prod.ext_iff]
  · intro h1 h2
    refine ⟨?_, ?_, ?_, ?_⟩ <;>
      simp +decide [delaunay3, connectE, quadMake, makeNextFun, makeOrgFun, spliceN, spliceDuals,
        lnextN, symE, rotE, Function.update_apply, h1, h2, Prod.ext_iff]
  · intro h1 h2
    constructor <;>
      simp +decide [delaunay3, connectE, quadMake, makeNextFun, makeOrgFun, spliceN, spliceDuals,
        lnextN, symE, rotE, Function.update_apply, h1, h2, Prod.ext_iff]

/-- Witness for C3: each of the three branch implications discharged at a
concrete triple — a counter-clockwise triple, a clockwise triple and a
collinear triple. -/
theorem delaunay3_base_case_witness :
    (delaunay3 (0, 0) (1, 0) (0, 1)).2 = ((0, 0), (1, 2)) ∧
    (delaunay3 (0, 0) (0, 1) (1, 0)).2 = ((2, 2), (2, 0)) ∧
    (delaunay3 (0, 0) (1, 0) (2, 0)).1.nquads = 2 := by
  refine ⟨?_, ?_, ?_⟩
  · exact ((delaunay3_base_case (0, 0) (1, 0) (0, 1)).2.1
      (by norm_num [ccw, det3])).1
  · exact ((delaunay3_base_case (0, 0) (0, 1) (1, 0)).2.2.1
      (by norm_num [ccw, det3]) (by norm_num [ccw, det3])).1
  · exact ((delaunay3_base_case (0, 0) (1, 0) (2, 0)).2.2.2
      (by norm_num [ccw, det3]) (by norm_num [ccw, det3])).2

/-! ## The `connect` postcondition (C5) -/

lemma ne_of_fst {x y : ERef} (h : x.1 ≠ y.1) : x ≠ y := fun he => h (by rw [he])

lemma ne_of_snd {x y : ERef} (h : x.2 ≠ y.2) : x ≠ y := fun he => h (by rw [he])

lemma pair_eq_snd {n : ℕ} {r s : ZMod 4} (h : r = s) : ((n, r) : ERef) = (n, s) := by
  rw [h]

lemma rotE_fst (e : ERef) (n : ZMod 4) : (rotE e n).1 = e.1 := rfl

lemma rotE_snd (e : ERef) (n : ZMod 4) : (rotE e n).2 = e.2 + n := rfl

lemma rotE_mk (q : ℕ) (r n : ZMod 4) : rotE (q, r) n = (q, r + n) := rfl

lemma rotE_rotE (e : ERef) (m n : ZMod 4) : rotE (rotE e m) n = rotE e (m + n) := by
  simp [rotE, add_assoc]

lemma parN_one : parN 1 = 1 := map_one parN

lemma parN_two : parN 2 = 0 := by
  rw [show (2 : ZMod 4) = 1 + 1 by decide, map_add, parN_one]
  decide

lemma parN_three : parN 3 = 1 := by
  rw [show (3 : ZMod 4) = 2 + 1 by decide, map_add, parN_two, parN_one, zero_add]

lemma makeNextFun_old (f : ERef → ERef) (q : ℕ) {x : ERef} (h : x.1 ≠ q) :
    makeNextFun f q x = f x := by
  simp [makeNextFun, h]

lemma makeNextFun_new (f : ERef → ERef) (q : ℕ) (r : ZMod 4) :
    makeNextFun f q (q, r) = (q, -r) := by
  simp [makeNextFun]

/-- The heart of the `connect` postcondition: in the spliced successor map,
the left-face dual of `a` points at the left-face dual of the new edge
`(n, 0)`, which points at the left-face dual of `b`. -/
lemma connect_next_facts (f : ERef → ERef) (n : ℕ) (a b : ERef)
    (HA : a.1 < n) (HB : b.1 < n)
    (Hpa : par a = 0) (Hpb : par b = 0)
    (Hclosed : ∀ x : ERef, x.1 < n → (f x).1 < n)
    (Hpar : ∀ x : ERef, x.1 < n → par (f x) = par x)
    (Hwf : ∀ x : ERef, x.1 < n → f (rotE (f x) 1) = rotE x 3)
    (HbL : b ≠ lnextN f a) (HbN : f b ≠ symE a) :
    spliceN (spliceN (makeNextFun f n) (n, 0) (lnextN (makeNextFun f n) a))
        (symE (n, 0)) b (rotE a 3) = rotE (n, 0) 3 ∧
    spliceN (spliceN (makeNextFun f n) (n, 0) (lnextN (makeNextFun f n) a))
        (symE (n, 0)) b (rotE (n, 0) 3) = rotE b 3 := by
  have ha1 : a.1 ≠ n := Nat.ne_of_lt HA
  have hb1 : b.1 ≠ n := Nat.ne_of_lt HB
  -- the lnext argument is computed in the pre-make map
  have hLa : lnextN (makeNextFun f n) a = lnextN f a := by
    unfold lnextN
    rw [makeNextFun_old f n (by rw [rotE_fst]; exact ha1)]
  rw [hLa]
  have hL1 : (lnextN f a).1 < n := by
    unfold lnextN
    rw [rotE_fst]
    exact Hclosed _ (by rw [rotE_fst]; exact HA)
  have hL1ne : (lnextN f a).1 ≠ n := Nat.ne_of_lt hL1
  -- f (a.lnext) = a.sym  (edge-algebra identity)
  have hfL : f (lnextN f a) = symE a := by
    have h := Hwf (rotE a (-1)) (by rw [rotE_fst]; exact HA)
    show f (rotE (f (rotE a (-1))) 1) = symE a
    rw [h, rotE_rotE, show ((-1) + 3 : ZMod 4) = 2 by decide]
    rfl
  -- parities
  have hparL : par (lnextN f a) = 0 := by
    unfold lnextN
    rw [par_rotE, Hpar _ (by rw [rotE_fst]; exact HA), par_rotE, Hpa, map_neg,
      parN_one]
    decide
  have hpar_r3a : par (rotE a 3) = 1 := by
    rw [par_rotE, Hpa, parN_three, zero_add]
  have hpar_fb1 : par (rotE (f b) 1) = 1 := by
    rw [par_rotE, Hpar b HB, Hpb, parN_one, zero_add]
  -- the make-map on the relevant records
  have hN1e : makeNextFun f n (n, 0) = (n, 0) := by
    rw [makeNextFun_new]; simp
  have hN1L : makeNextFun f n (lnextN f a) = symE a :=
    (makeNextFun_old f n hL1ne).trans hfL
  have hβ₁ : rotE (makeNextFun f n (lnextN f a)) 1 = rotE a 3 := by
    rw [hN1L, symE, rotE_rotE, show (2 + 1 : ZMod 4) = 3 by decide]
  have hα₁ : rotE (makeNextFun f n (n, 0)) 1 = ((n, 1) : ERef) := by
    rw [hN1e, rotE_mk]
    exact pair_eq_snd (by decide)
  -- facts about the first splice
  have h2_r3a : spliceN (makeNextFun f n) (n, 0) (lnextN f a) (rotE a 3)
      = rotE (n, 0) 3 := by
    have h := spliceN_eval_beta (makeNextFun f n) (n, 0) (lnextN f a)
      (by rw [hβ₁]; exact ne_of_fst (by rw [rotE_fst]; exact ha1))
      (by rw [hβ₁]; exact ne_of_par (by rw [hpar_r3a, hparL]; decide))
    rw [hβ₁, hα₁] at h
    rw [h, makeNextFun_new, rotE_mk]
    exact pair_eq_snd (by decide)
  have h2_b : spliceN (makeNextFun f n) (n, 0) (lnextN f a) b
      = f b := by
    rw [spliceN_eval_other (makeNextFun f n) (n, 0) (lnextN f a)
      (ne_of_fst hb1) HbL
      (by rw [hα₁]; exact ne_of_fst hb1)
      (by rw [hβ₁]; exact ne_of_par (by rw [Hpb, hpar_r3a]; decide)),
      makeNextFun_old f n hb1]
  have hsym0 : symE ((n, 0) : ERef) = ((n, 2) : ERef) := by
    rw [symE, rotE_mk]
    exact pair_eq_snd (by decide)
  have h03 : rotE ((n, 0) : ERef) 3 = ((n, 3) : ERef) := by
    rw [rotE_mk]
    exact pair_eq_snd (by decide)
  have h2_syme : spliceN (makeNextFun f n) (n, 0) (lnextN f a) (symE (n, 0))
      = symE (n, 0) := by
    rw [hsym0, spliceN_eval_other (makeNextFun f n) (n, 0) (lnextN f a)
      (ne_of_snd (show (2 : ZMod 4) ≠ 0 by decide))
      (ne_of_fst (fun h => hL1ne h.symm))
      (by rw [hα₁]; exact ne_of_snd (show (2 : ZMod 4) ≠ 1 by decide))
      (by rw [hβ₁]; exact ne_of_fst ha1.symm),
      makeNextFun_new]
    exact pair_eq_snd (by decide)
  -- the key exclusion: rot1 of b's successor is not the left dual of a
  have hkey : rotE (f b) 1 ≠ rotE a 3 := by
    intro h
    apply HbN
    have h1 := congrArg Prod.fst h
    have h2 := congrArg Prod.snd h
    rw [rotE_fst, rotE_fst] at h1
    rw [rotE_snd, rotE_snd] at h2
    have h3 : (f b).2 = a.2 + 2 := by
      rwa [show (a.2 + 3 : ZMod 4) = (a.2 + 2) + 1 by ring, add_left_inj] at h2
    show f b = rotE a 2
    rw [show rotE a 2 = ((a.1, a.2 + 2) : ERef) from rfl, ← h1, ← h3]
  have h2_beta2 : spliceN (makeNextFun f n) (n, 0) (lnextN f a) (rotE (f b) 1)
      = rotE b 3 := by
    have hfb1 : (rotE (f b) 1).1 ≠ n := by
      rw [rotE_fst]; exact Nat.ne_of_lt (Hclosed b HB)
    rw [spliceN_eval_other (makeNextFun f n) (n, 0) (lnextN f a)
      (ne_of_fst hfb1)
      (ne_of_par (by rw [hpar_fb1, hparL]; decide))
      (by rw [hα₁]; exact ne_of_fst hfb1)
      (by rw [hβ₁]; exact hkey),
      makeNextFun_old f n hfb1]
    exact Hwf b HB
  -- facts about the second splice
  have hα₂ : rotE (spliceN (makeNextFun f n) (n, 0) (lnextN f a) (symE (n, 0))) 1
      = ((n, 3) : ERef) := by
    rw [h2_syme, hsym0, rotE_mk]
    exact pair_eq_snd (by decide)
  have hβ₂ : rotE (spliceN (makeNextFun f n) (n, 0) (lnextN f a) b) 1
      = rotE (f b) 1 := by
    rw [h2_b]
  constructor
  · -- next₃ (a.rot(-1)) = new edge's left dual
    rw [spliceN_eval_other (spliceN (makeNextFun f n) (n, 0) (lnextN f a))
      (symE (n, 0)) b
      (by rw [hsym0]; exact ne_of_fst ha1)
      (ne_of_par (by rw [hpar_r3a, Hpb]; decide))
      (by rw [hα₂]; exact ne_of_fst ha1)
      (by rw [hβ₂]; exact hkey.symm),
      h2_r3a]
  · -- next₃ (new edge's left dual) = b's left dual
    have h := spliceN_eval_alpha (spliceN (makeNextFun f n) (n, 0) (lnextN f a))
      (symE (n, 0)) b
      (by rw [hα₂, hsym0]; exact ne_of_snd (show (3 : ZMod 4) ≠ 2 by decide))
      (by rw [hα₂]; exact ne_of_fst hb1.symm)
    rw [hα₂, hβ₂] at h
    rw [h03, h, h2_beta2]

lemma makeOrgFun_old (g : ERef → Option Pt) (q : ℕ) {x : ERef} (h : x.1 ≠ q) :
    makeOrgFun g q x = g x := by
  simp [makeOrgFun, h]

lemma parN_zero : parN 0 = 0 := map_zero parN

/-- C5: `connect(a, b)` on a well-formed state returns a newly allocated
edge `e = (nquads, 0)` (growing the arena by one quad) with
`e.org = a.dest` and `e.dest = b.org`, and afterwards the left faces of
`a`, `e` and `b` coincide: the left-face dual of `a` has `onext` successor
the left-face dual of `e`, whose successor is the left-face dual of `b`, so
the three left duals lie in one `onext` orbit. Well-formedness asks that
`a`, `b` are allocated primal edges, the successor map stays in the arena,
preserves parity and satisfies the edge-algebra law
`next (rot1 (next x)) = rot3 x`, and that `b` is neither `a.lnext` nor has
`a.sym` as its successor (`connect` is never called that way). -/
theorem connect_spec (st : GState) (a b : ERef)
    (HA : a.1 < st.nquads) (HB : b.1 < st.nquads)
    (Hpa : par a = 0) (Hpb : par b = 0)
    (Hclosed : ∀ x : ERef, x.1 < st.nquads → (st.next x).1 < st.nquads)
    (Hpar : ∀ x : ERef, x.1 < st.nquads → par (st.next x) = par x)
    (Hwf : ∀ x : ERef, x.1 < st.nquads → st.next (rotE (st.next x) 1) = rotE x 3)
    (HbL : b ≠ lnextN st.next a) (HbN : st.next b ≠ symE a) :
    (connectE st a b).2 = (st.nquads, 0) ∧
    (connectE st a b).1.nquads = st.nquads + 1 ∧
    (connectE st a b).1.org (connectE st a b).2 = st.org (symE a) ∧
    (connectE st a b).1.org (symE (connectE st a b).2) = st.org b ∧
    (connectE st a b).1.next (rotE a 3) = rotE (connectE st a b).2 3 ∧
    (connectE st a b).1.next (rotE (connectE st a b).2 3) = rotE b 3 ∧
    Reaches (connectE st a b).1.next (rotE a 3) (rotE b 3) := by
  obtain ⟨hfact1, hfact2⟩ := connect_next_facts st.next st.nquads a b
    HA HB Hpa Hpb Hclosed Hpar Hwf HbL HbN
  have ha1 : a.1 ≠ st.nquads := Nat.ne_of_lt HA
  have hb1 : b.1 ≠ st.nquads := Nat.ne_of_lt HB
  have h2 : (connectE st a b).2 = ((st.nquads, 0) : ERef) := rfl
  have hnext : (connectE st a b).1.next
      = spliceN (spliceN (makeNextFun st.next st.nquads) (st.nquads, 0)
          (lnextN (makeNextFun st.next st.nquads) a))
        (symE (st.nquads, 0)) b := rfl
  have horg : (connectE st a b).1.org
      = Function.update
          (Function.update (makeOrgFun st.org st.nquads) (st.nquads, 0)
            (makeOrgFun st.org st.nquads (symE a)))
          (symE (st.nquads, 0))
          (Function.update (makeOrgFun st.org st.nquads) (st.nquads, 0)
            (makeOrgFun st.org st.nquads (symE a)) b) := rfl
  refine ⟨rfl, rfl, ?_, ?_, ?_, ?_, ?_⟩
  · rw [h2, horg, Function.update_apply,
      if_neg (ne_of_snd (show (0 : ZMod 4) ≠ 0 + 2 by decide)),
      Function.update_apply, if_pos rfl,
      makeOrgFun_old st.org st.nquads (show (symE a).1 ≠ st.nquads from ha1)]
  · rw [h2, horg, Function.update_apply, if_pos rfl, Function.update_apply,
      if_neg (ne_of_fst (show b.1 ≠ (st.nquads, (0 : ZMod 4)).1 from hb1)),
      makeOrgFun_old st.org st.nquads hb1]
  · rw [h2, hnext]
    exact hfact1
  · rw [h2, hnext]
    exact hfact2
  · refine ⟨2, ?_⟩
    show (connectE st a b).1.next ((connectE st a b).1.next (rotE a 3))
      = rotE b 3
    rw [hnext, hfact1, hfact2]

/-- A concrete well-formed two-quad state: the open chain built by the
three-site base case just before its `connect(b, a)` call (quad 0 is the
edge `a`, quad 1 the edge `b`, spliced at the shared middle site). -/
def chainW : GState where
  nquads := 2
  next := fun x =>
    if x = (0, 1) then (0, 3)
    else if x = (0, 2) then (1, 0)
    else if x = (0, 3) then (1, 3)
    else if x = (1, 0) then (0, 2)
    else if x = (1, 1) then (0, 1)
    else if x = (1, 3) then (1, 1)
    else x
  org := fun _ => none

/-- Witness for C5: `connect` on the concrete chain state, with all
well-formedness hypotheses discharged by computation. -/
theorem connect_spec_witness :
    (connectE chainW (1, 0) (0, 0)).2 = (chainW.nquads, 0) ∧
    Reaches (connectE chainW (1, 0) (0, 0)).1.next (rotE (1, 0) 3)
      (rotE (0, 0) 3) := by
  have hcases : ∀ r : ZMod 4, r = 0 ∨ r = 1 ∨ r = 2 ∨ r = 3 := by decide
  have thm := connect_spec chainW (1, 0) (0, 0)
    (by decide) (by decide)
    (show parN 0 = 0 from parN_zero) (show parN 0 = 0 from parN_zero)
    (by
      rintro ⟨q, r⟩ hx
      have hq2 : q < 2 := hx
      clear hx
      interval_cases q <;> revert r <;> decide)
    (by
      rintro ⟨q, r⟩ hx
      have hq2 : q < 2 := hx
      clear hx
      interval_cases q <;> rcases hcases r with h | h | h | h <;> subst h <;>
        simp +decide [chainW, par, parN_zero, parN_one, parN_two, parN_three])
    (by
      rintro ⟨q, r⟩ hx
      have hq2 : q < 2 := hx
      clear hx
      interval_cases q <;> revert r <;> decide)
    (by decide) (by decide)
  exact ⟨thm.1, thm.2.2.2.2.2.2⟩

/-! ## The Voronoi polygon walk of `calculate_dual` (dual.py, lines 63-67) -/

/-- The while loop
`while (edge := edge.onext).left.org not in vertices: vertices.append(...)`:
step to the `onext` successor, stop as soon as the successor's left-face
vertex is already collected, else append it. The `fuel` argument bounds the
number of loop iterations; the loop itself is unbounded, and the walk
theorems hold for every sufficiently large fuel. -/
def collectVerts (f : ERef → ERef) (g : ERef → Pt) :
    ℕ → ERef → List Pt → List Pt
  | 0, _, acc => acc
  | fuel + 1, e, acc =>
    if g (f e) ∈ acc then acc
    else collectVerts f g fuel (f e) (acc ++ [g (f e)])

/-- `e.left.org`: the left-face payload, read through `left = rot(-1)`. -/
def leftOrgW (org : ERef → Pt) (e : ERef) : Pt := org (rotE e (-1))

/-- `vertices = [edge.left.org]` followed by the walk: the polygon stored in
`edge.data["vertices"]` by the last loop of `calculate_dual`. -/
def polygonOf (next : ERef → ERef) (org : ERef → Pt) (fuel : ℕ) (e : ERef) :
    List Pt :=
  collectVerts next (leftOrgW org) fuel e [leftOrgW org e]

lemma collect_walk_inv (f : ERef → ERef) (g : ERef → Pt) (e : ERef) (n : ℕ)
    (hn : 0 < n) (hper : f^[n] e = e)
    (hinj : ∀ i < n, ∀ j < n, g (f^[i] e) = g (f^[j] e) → i = j) :
    ∀ fuel k, 1 ≤ k → k ≤ n → n + 1 ≤ fuel + k →
      collectVerts f g fuel (f^[k - 1] e)
          ((List.range k).map (fun i => g (f^[i] e)))
        = (List.range n).map (fun i => g (f^[i] e)) := by
  intro fuel
  induction fuel with
  | zero => intro k h1 h2 h3; omega
  | succ fuel ih =>
    intro k h1 h2 h3
    have hstep : f (f^[k - 1] e) = f^[k] e := by
      rw [← Function.iterate_succ_apply' f (k - 1) e]
      congr 1
      omega
    rcases eq_or_lt_of_le h2 with hk | hk
    · -- k = n: the next left vertex is the first one again; the walk stops
      have hmem : g (f (f^[k - 1] e))
          ∈ (List.range k).map (fun i => g (f^[i] e)) := by
        rw [hstep, hk, hper]
        exact List.mem_map.mpr ⟨0, List.mem_range.mpr hn, rfl⟩
      simp only [collectVerts]
      rw [if_pos hmem, hk]
    · -- k < n: the next left vertex is new; the walk continues
      have hnot : g (f (f^[k - 1] e))
          ∉ (List.range k).map (fun i => g (f^[i] e)) := by
        rw [hstep]
        intro hmem
        obtain ⟨i, hi, hgi⟩ := List.mem_map.mp hmem
        have hi' := List.mem_range.mp hi
        have := hinj i (by omega) k (by omega) hgi
        omega
      simp only [collectVerts]
      rw [if_neg hnot, hstep]
      have h := ih (k + 1) (by omega) (by omega) (by omega)
      rw [List.range_succ, List.map_append, Nat.add_sub_cancel] at h
      simpa using h

/-- C6 (amended): when the `onext` orbit of `e` has period `n` and the `n`
left-face vertices around it are pairwise distinct, the stored polygon is
exactly the ordered walk of left-face vertices around `e`'s origin, its
length is `n` — the number of faces incident to the origin site — and the
walk closes: the vertex after the last one is the first vertex again. -/
theorem polygon_walk_spec (next : ERef → ERef) (org : ERef → Pt) (e : ERef)
    (n : ℕ) (hn : 0 < n) (hper : next^[n] e = e)
    (hinj : ∀ i < n, ∀ j < n,
      leftOrgW org (next^[i] e) = leftOrgW org (next^[j] e) → i = j)
    (fuel : ℕ) (hfuel : n ≤ fuel) :
    polygonOf next org fuel e
      = (List.range n).map (fun i => leftOrgW org (next^[i] e)) ∧
    (polygonOf next org fuel e).length = n ∧
    leftOrgW org (next^[n] e) = leftOrgW org e := by
  have h := collect_walk_inv next (leftOrgW org) e n hn hper hinj fuel 1
    le_rfl hn (by omega)
  have h1 : polygonOf next org fuel e
      = (List.range n).map (fun i => leftOrgW org (next^[i] e)) := by
    rw [polygonOf, show [leftOrgW org e]
        = (List.range 1).map (fun i => leftOrgW org (next^[i] e)) from rfl]
    exact h
  refine ⟨h1, ?_, by rw [hper]⟩
  rw [h1, List.length_map, List.length_range]

/-- A concrete `onext` orbit of three edges around one site, as arises for a
hull site of the square `{(0,0), (0,1), (1,0), (1,1)}`. -/
def sqNext : ERef → ERef := fun x =>
  if x = (0, 0) then (1, 0)
  else if x = (1, 0) then (2, 0)
  else if x = (2, 0) then (0, 0)
  else x

/-- Left-face vertices around that site when the two incident triangles are
cocircular and share their circumcenter `(1, 1)` (scaled square), while the
third incident face carries a different vertex. -/
def sqOrg : ERef → Pt := fun x => if x = (2, 3) then (5, 5) else (1, 1)

/-- Counterexample to C6 as stated: around this site the `onext` orbit has
period 3 with three distinct edges (three incident faces), yet the stored
polygon has length 1, because the walk stops at the first repeated vertex
and two distinct incident faces share their Voronoi vertex. -/
theorem polygon_walk_cex :
    sqNext^[3] (0, 0) = (0, 0) ∧
    (∀ i < 3, ∀ j < 3, sqNext^[i] ((0, 0) : ERef) = sqNext^[j] (0, 0) → i = j) ∧
    (polygonOf sqNext sqOrg 9 (0, 0)).length = 1 ∧
    (polygonOf sqNext sqOrg 9 (0, 0)).length ≠ 3 := by
  exact ⟨by decide, by decide, by decide, by decide⟩

/-- Distinct left-face vertices for the same orbit: the generic situation. -/
def triOrg : ERef → Pt := fun x =>
  if x = (0, 3) then (1, 1) else if x = (1, 3) then (2, 2) else (5, 5)

/-- Witness for the amended C6: on a three-edge orbit with pairwise distinct
left-face vertices the polygon is the full ordered vertex list of length 3
and the walk closes on the first vertex. -/
theorem polygon_walk_spec_witness :
    polygonOf sqNext triOrg 9 (0, 0)
      = (List.range 3).map (fun i => leftOrgW triOrg (sqNext^[i] (0, 0))) ∧
    (polygonOf sqNext triOrg 9 (0, 0)).length = 3 := by
  have h := polygon_walk_spec sqNext triOrg (0, 0) 3 (by omega) (by decide)
    (by decide) 9 (by omega)
  exact ⟨h.1, h.2.1⟩

/-! ## Outer-edge extrapolation in `calculate_dual` (dual.py, lines 54-59) -/

/-- One step of the outer-ring loop:
`orthagonal_vector = (np.array(e.org) - np.array(e.dest))[::-1] * [-1, 1]`
— for `org - dest = (vx, vy)` the reversed, sign-flipped vector is
`(-vy, vx)` — and the new finite destination is
`e.left.org + orthagonal_vector`, the already-computed circumcenter `c` of
the adjacent bounded triangle plus that offset. -/
def extrapolate (org dest c : Pt) : Pt :=
  (c.1 - (org.2 - dest.2), c.2 + (org.1 - dest.1))

/-- 2D cross product, used to express sidedness. -/
def cross (u v : Pt) : ℚ := u.1 * v.2 - u.2 * v.1

/-- C7: the point that replaces the at-infinity sentinel is the adjacent
triangle's circumcenter offset by the 90° (clockwise) rotation of the edge
vector `dest - org`; the offset's squared magnitude equals the edge
vector's; for a nondegenerate edge the offset points strictly to the right
of the directed edge (`cross < 0`), while every point strictly left of the
edge — the hull-interior side of an outer-ring edge, whose unbounded face
lies on its right — has `cross > 0`: the offset points away from the hull
interior. -/
theorem extrapolate_spec (org dest c : Pt) :
    extrapolate org dest c
      = (c.1 + (dest.2 - org.2), c.2 - (dest.1 - org.1)) ∧
    ((extrapolate org dest c).1 - c.1) ^ 2 + ((extrapolate org dest c).2 - c.2) ^ 2
      = (dest.1 - org.1) ^ 2 + (dest.2 - org.2) ^ 2 ∧
    ((dest.1 - org.1, dest.2 - org.2) ≠ ((0 : ℚ), (0 : ℚ)) →
      cross (dest.1 - org.1, dest.2 - org.2)
        ((extrapolate org dest c).1 - c.1, (extrapolate org dest c).2 - c.2) < 0) ∧
    (∀ p : Pt, ccw p org dest = true →
      0 < cross (dest.1 - org.1, dest.2 - org.2) (p.1 - org.1, p.2 - org.2)) := by
  refine ⟨?_, ?_, ?_, ?_⟩
  · rw [extrapolate, Prod.mk.injEq]
    constructor <;> ring
  · rw [extrapolate]
    ring
  · intro h
    have hor : dest.1 - org.1 ≠ 0 ∨ dest.2 - org.2 ≠ 0 := by
      by_contra hc
      push_neg at hc
      exact h (by rw [Prod.mk.injEq]; exact ⟨hc.1, hc.2⟩)
    have hpos : 0 < (dest.1 - org.1) ^ 2 + (dest.2 - org.2) ^ 2 := by
      rcases hor with h1 | h1 <;> positivity
    have hval : cross (dest.1 - org.1, dest.2 - org.2)
        ((extrapolate org dest c).1 - c.1, (extrapolate org dest c).2 - c.2)
        = -((dest.1 - org.1) ^ 2 + (dest.2 - org.2) ^ 2) := by
      rw [cross, extrapolate]
      ring
    rw [hval]
    linarith
  · intro p hp
    have hdet : 0 < det3 p org dest := of_decide_eq_true hp
    have heq : det3 p org dest
        = cross (dest.1 - org.1, dest.2 - org.2) (p.1 - org.1, p.2 - org.2) := by
      rw [det3, cross]
      ring
    rw [← heq]
    exact hdet

/-- Witness for C7: the hypothesis-bearing conjuncts discharged on the hull
edge `(0,0) → (1,0)` with circumcenter `(3, 7)` and interior point
`(0, 1)`. -/
theorem extrapolate_spec_witness :
    cross ((1 : ℚ) - 0, (0 : ℚ) - 0)
      ((extrapolate (0, 0) (1, 0) (3, 7)).1 - 3,
        (extrapolate (0, 0) (1, 0) (3, 7)).2 - 7) < 0 ∧
    0 < cross ((1 : ℚ) - 0, (0 : ℚ) - 0) ((0 : ℚ) - 0, (1 : ℚ) - 0) := by
  constructor
  · exact (extrapolate_spec (0, 0) (1, 0) (3, 7)).2.2.1
      (by norm_num [Prod.ext_iff])
  · exact (extrapolate_spec (0, 0) (1, 0) (3, 7)).2.2.2 (0, 1)
      (by norm_num [ccw, det3])

/-! ## Edge hashing vs. edge equality (C9) -/

/-- An `Edge` record as seen by `__hash__`/`__eq__`: its owning `Quad`
(identified by the quad's id, which is what `hash(self._quad)` keys on) and
its origin/destination payloads. -/
structure PyEdge where
  quadId : ℕ
  org : Option Pt
  dest : Option Pt

/-- `Edge.__hash__` (lines 174-176): the hash of the parent `Quad`, i.e. a
key determined by the owning quad alone. -/
def edgeHash (e : PyEdge) : ℕ := e.quadId

/-- `Edge.__eq__` (lines 178-182): two edges are equal when they connect the
same unordered pair of origin/destination payloads. -/
def edgeEq (e1 e2 : PyEdge) : Prop :=
  (e1.org = e2.org ∧ e1.dest = e2.dest) ∨ (e1.org = e2.dest ∧ e1.dest = e2.org)

/-- Counterexample to C9 as stated: two edge records of different Quads
joining the same site pair compare equal under `__eq__` but hash
differently, so `Edge` equality is not consistent with `Edge` hashing. -/
theorem edge_hash_cex :
    ¬ (∀ e1 e2 : PyEdge, edgeEq e1 e2 → edgeHash e1 = edgeHash e2) := by
  intro h
  have := h ⟨0, some (0, 0), some (1, 1)⟩ ⟨1, some (0, 0), some (1, 1)⟩
    (Or.inl ⟨rfl, rfl⟩)
  simp [edgeHash] at this

/-- C9 (amended): hashing is constant only across the records of one Quad —
in particular an edge and its `sym`, which share their Quad, always hash
identically; across Quads, `__eq__`-equality does not imply hash
equality. -/
theorem edge_hash_same_quad (e1 e2 : PyEdge) (h : e1.quadId = e2.quadId) :
    edgeHash e1 = edgeHash e2 := h

/-- Witness for the amended C9: an edge and its sym inside quad 3. -/
theorem edge_hash_same_quad_witness :
    edgeHash ⟨3, some (0, 0), some (1, 1)⟩
      = edgeHash ⟨3, some (1, 1), some (0, 0)⟩ :=
  edge_hash_same_quad ⟨3, some (0, 0), some (1, 1)⟩
    ⟨3, some (1, 1), some (0, 0)⟩ rfl

/-! ## `delete_edge` and `Edge.delete` (C10)

Here the `_quad` back-reference is part of the state, because `Edge.delete`
clears it: `quad x = none` models a record whose `_quad` is `None`, making
any `rot`/`sym` access fail, and `next x = none` a cleared `onext`
pointer. -/

/-- The deletable graph state: `onext` pointers, `_quad` back-references and
origin payloads. -/
structure MState where
  next : ERef → Option ERef
  quad : ERef → Option ℕ
  org : ERef → Option Pt

/-- `Edge.rot(n)` through the `_quad` back-reference:
`self._quad[(self._rot + n) % 4]`; on a deleted edge (`_quad` cleared) the
access fails. -/
def rotM (st : MState) (e : ERef) (n : ZMod 4) : Option ERef :=
  (st.quad e).map (fun q => (q, e.2 + n))

/-- `e.oprev` = `self.rot(1).onext.rot(1)` in the deletable graph. -/
def oprevM (st : MState) (e : ERef) : Option ERef := do
  let r1 ← rotM st e 1
  let nx ← st.next r1
  rotM st nx 1

/-- `splice(a, b)` in the deletable graph: all reads must succeed, then the
two successor swaps are performed as in `spliceN`. -/
def spliceM (st : MState) (a b : ERef) : Option MState := do
  let na ← st.next a
  let nb ← st.next b
  let alpha ← rotM st na 1
  let beta ← rotM st nb 1
  let nalpha ← st.next alpha
  let nbeta ← st.next beta
  let g := Function.update (Function.update st.next alpha (some nbeta)) beta
    (some nalpha)
  some { st with next := Function.update (Function.update g a (g b)) b (g a) }

/-- `Edge.delete` (lines 184-195): clear the `next` pointer and the `_quad`
reference of this record and of its three siblings in the owning quad; the
origin payloads are not touched. -/
def deleteM (st : MState) (e : ERef) : Option MState :=
  (st.quad e).map (fun q =>
    ⟨fun x => if x.1 = q then none else st.next x,
     fun x => if x.1 = q then none else st.quad x,
     st.org⟩)

/-- `delete_edge(e)` (lines 225-231): `splice(e, e.oprev)`,
`splice(e.sym, e.sym.oprev)`, then `e.delete()`. -/
def delete_edgeM (st : MState) (e : ERef) : Option MState := do
  let p ← oprevM st e
  let st1 ← spliceM st e p
  let se ← rotM st1 e 2
  let p2 ← oprevM st1 se
  let st2 ← spliceM st1 se p2
  deleteM st2 e

lemma rotM_live (st : MState) (Hq : ∀ x : ERef, st.quad x = some x.1)
    (e : ERef) (n : ZMod 4) : rotM st e n = some (e.1, e.2 + n) := by
  simp [rotM, Hq]

lemma oprevM_live (st : MState) (e : ERef)
    (Hq : ∀ x : ERef, st.quad x = some x.1)
    (Hn : ∀ x : ERef, (st.next x).isSome) :
    ∃ p, oprevM st e = some p := by
  obtain ⟨nx, hnx⟩ := Option.isSome_iff_exists.mp (Hn (e.1, e.2 + 1))
  exact ⟨(nx.1, nx.2 + 1), by simp [oprevM, rotM_live st Hq, hnx]⟩

lemma spliceM_live (st : MState) (a b : ERef)
    (Hq : ∀ x : ERef, st.quad x = some x.1)
    (Hn : ∀ x : ERef, (st.next x).isSome) :
    ∃ st', spliceM st a b = some st' ∧ st'.quad = st.quad ∧ st'.org = st.org ∧
      ∀ x : ERef, (st'.next x).isSome := by
  obtain ⟨na, hna⟩ := Option.isSome_iff_exists.mp (Hn a)
  obtain ⟨nb, hnb⟩ := Option.isSome_iff_exists.mp (Hn b)
  obtain ⟨nα, hnα⟩ := Option.isSome_iff_exists.mp (Hn (na.1, na.2 + 1))
  obtain ⟨nβ, hnβ⟩ := Option.isSome_iff_exists.mp (Hn (nb.1, nb.2 + 1))
  refine ⟨⟨Function.update (Function.update
      (Function.update (Function.update st.next (na.1, na.2 + 1) (some nβ))
        (nb.1, nb.2 + 1) (some nα)) a
      ((Function.update (Function.update st.next (na.1, na.2 + 1) (some nβ))
        (nb.1, nb.2 + 1) (some nα)) b)) b
      ((Function.update (Function.update st.next (na.1, na.2 + 1) (some nβ))
        (nb.1, nb.2 + 1) (some nα)) a), st.quad, st.org⟩, ?_, rfl, rfl, ?_⟩
  · simp [spliceM, hna, hnb, rotM_live st Hq, hnα, hnβ]
  · intro x
    simp only [Function.update_apply]
    split_ifs <;> simp [Hn]

/-- C10: on a live state (every record's `_quad` reference is its owning
quad and every `onext` pointer is present), `delete_edge(e)` succeeds and
afterwards all four records of `e`'s owning quad have `next = None` and
`_quad = None`, so every `rot`/`sym`/`onext` access through them fails
(`none`) instead of reaching the remaining graph; and no record outside
`e`'s quad has its `_quad` reference or its origin payload changed. -/
theorem delete_edge_spec (st : MState) (e : ERef)
    (Hq : ∀ x : ERef, st.quad x = some x.1)
    (Hn : ∀ x : ERef, (st.next x).isSome) :
    ∃ st', delete_edgeM st e = some st' ∧
      (∀ k : ZMod 4, st'.next (e.1, k) = none ∧ st'.quad (e.1, k) = none ∧
        ∀ n : ZMod 4, rotM st' (e.1, k) n = none) ∧
      (∀ x : ERef, x.1 ≠ e.1 → st'.quad x = st.quad x ∧ st'.org x = st.org x) := by
  obtain ⟨p, hp⟩ := oprevM_live st e Hq Hn
  obtain ⟨st1, h1, hq1, ho1, hn1⟩ := spliceM_live st e p Hq Hn
  have Hq1 : ∀ x : ERef, st1.quad x = some x.1 := by rw [hq1]; exact Hq
  obtain ⟨p2, hp2⟩ := oprevM_live st1 (e.1, e.2 + 2) Hq1 hn1
  obtain ⟨st2, h2, hq2, ho2, hn2⟩ := spliceM_live st1 (e.1, e.2 + 2) p2 Hq1 hn1
  have Hq2 : ∀ x : ERef, st2.quad x = some x.1 := by rw [hq2]; exact Hq1
  refine ⟨⟨fun x => if x.1 = e.1 then none else st2.next x,
           fun x => if x.1 = e.1 then none else st2.quad x, st2.org⟩, ?_, ?_, ?_⟩
  · simp [delete_edgeM, hp, h1, rotM_live st1 Hq1, hp2, h2, deleteM, Hq2]
  · intro k
    refine ⟨by simp, by simp, ?_⟩
    intro n
    simp [rotM]
  · intro x hx
    constructor
    · show (if x.1 = e.1 then none else st2.quad x) = st.quad x
      rw [if_neg hx, hq2, hq1]
    · show st2.org x = st.org x
      rw [ho2, ho1]

/-- A live one-quad graph (fresh `Quad.make` topology). -/
def liveW : MState where
  next := fun x => some (x.1, -x.2)
  quad := fun x => some x.1
  org := fun _ => none

/-- Witness for C10: deleting the primal edge of the live one-quad graph
succeeds, clears its quad's records, and leaves other quads' records
untouched. -/
theorem delete_edge_spec_witness :
    ∃ st', delete_edgeM liveW (0, 0) = some st' ∧ st'.quad (0, 2) = none ∧
      st'.next (0, 0) = none ∧ st'.org (5, 1) = liveW.org (5, 1) := by
  obtain ⟨st', h1, h2, h3⟩ :=
    delete_edge_spec liveW (0, 0) (fun _ => rfl) (fun _ => rfl)
  exact ⟨st', h1, (h2 2).2.1, (h2 0).1, (h3 (5, 1) (by decide)).2⟩

end Voronoi
